import Mathlib

/-!
Verification of the review subsystem of the movie-viewer application
(local persistence of per-movie reviews, validation, sorting, star rendering).

The definitions below are a shallow embedding of the TypeScript source:
* `loadReviewsFromLocalStorage`, `saveReviewsToLocalStorage`,
  `handleReviewSubmit`, `sortedReviews` and `renderStars` are translated
  from the genre page component (the same five functions are repeated
  verbatim on every genre page of the repository).
* Browser `localStorage` is modelled as a partial map from string keys to
  string values (`Store`).
* `JSON.stringify` / `JSON.parse`, as applied at their two call sites to
  arrays of `{rating, comment}` objects, are modelled character-exactly by
  `jsonStringifyReviews` / `jsonParseReviews`: the encoder emits the exact
  output format of `JSON.stringify` on such arrays (object keys in
  insertion order `rating`, `comment`, no whitespace, strings with `"` and
  `\` escaped), and the parser accepts exactly that grammar, returning
  `Except.error` where `JSON.parse` throws a `SyntaxError`.  Two deliberate
  abstractions, neither observable by any claim: control characters inside
  comments are carried verbatim rather than `\u`-escaped, and a stored
  value that is valid JSON but not a review array is treated as a parse
  error (the TypeScript cast would return a mis-typed value there).
* JavaScript numbers are modelled as exact rationals (`ℚ`).  A rational is
  `wellFormedRat` when it has a finite decimal expansion; every finite
  JavaScript number (a binary fraction) is of this shape.
-/

/-- A movie review: `interface Review { rating: number; comment: string }`. -/
structure Review where
  rating : ℚ
  comment : String
deriving DecidableEq, Repr

/-- The fields of `interface Movie` used by the review subsystem. -/
structure Movie where
  id : ℤ
  title : String
  overview : String
  poster_path : String
  vote_average : ℚ
deriving DecidableEq, Repr

/-- The review-related component state hooks of the page component:
`currentMovie`, `rating`, `comment`, `reviews`, `errorMessage`.
(The remaining hooks — movie list, trailer, modal flag, active tab — are
never read or written by the review handlers and are omitted.) -/
structure ComponentState where
  currentMovie : Option Movie
  rating : Option ℚ
  comment : String
  reviews : List Review
  errorMessage : String
deriving DecidableEq, Repr

/-- The sort dropdown: `sortOption ∈ \x7bnewest, highest, lowest\x7d`. -/
inductive SortOption where
  | newest
  | highest
  | lowest
deriving DecidableEq, Repr

/-- One star glyph of `renderStars` output: `FaStar`, `FaStarHalfAlt`, `FaRegStar`. -/
inductive StarGlyph where
  | full
  | half
  | empty
deriving DecidableEq, Repr

/-- Browser `localStorage`: a partial map from string keys to string values. -/
def Store : Type := String → Option String

/-- Multiplicity of a factor `p` in `n` (used to recognise rationals with a
finite decimal expansion). -/
def padicCount (p n : ℕ) : ℕ :=
  if h : 2 ≤ p ∧ 0 < n ∧ n % p = 0 then padicCount p (n / p) + 1 else 0
termination_by n
decreasing_by
  exact Nat.div_lt_self h.2.1 (by omega)

/-- A rational has a finite decimal expansion iff its (reduced) denominator
is of the form `2 ^ a * 5 ^ b`.  Every finite JavaScript number is a binary
fraction, hence `wellFormedRat`. -/
def wellFormedRat (q : ℚ) : Prop :=
  q.den = 2 ^ padicCount 2 q.den * 5 ^ padicCount 5 q.den

instance (q : ℚ) : Decidable (wellFormedRat q) := by
  unfold wellFormedRat; infer_instance

/-- Number of decimal digits needed after the point to write `q` exactly. -/
def ratDecExp (q : ℚ) : ℕ :=
  max (padicCount 2 q.den) (padicCount 5 q.den)

/-- Decimal digits of `n`, least significant first. -/
def natDigitsLE (n : ℕ) : List ℕ :=
  if h : n = 0 then [] else n % 10 :: natDigitsLE (n / 10)
termination_by n
decreasing_by
  exact Nat.div_lt_self (Nat.pos_of_ne_zero h) (by omega)

/-- Decimal rendering of a natural number, most significant digit first
(`"0"` for zero) — the digit sequence `JSON.stringify` emits. -/
def natToDigits (n : ℕ) : List Char :=
  if n = 0 then ['0'] else ((natDigitsLE n).reverse).map Nat.digitChar

/-- Numeric value of a run of decimal digit characters. -/
def natOfDigits (l : List Char) : ℕ :=
  l.foldl (fun a c => a * 10 + (c.toNat - 48)) 0

/-- `natToDigits n` left-padded with zeros to `k` digits (fractional part). -/
def zeroPad (k n : ℕ) : List Char :=
  List.replicate (k - (natToDigits n).length) '0' ++ natToDigits n

/-- The characters `JSON.stringify` emits for a (finite-decimal) number:
optional minus sign, integer digits, and a fractional part exactly when the
number is not an integer. -/
def encNumber (q : ℚ) : List Char :=
  let k := ratDecExp q
  let m : ℕ := q.num.natAbs * 10 ^ k / q.den
  (if q.num < 0 then ['-'] else []) ++
    (if k = 0 then natToDigits m
     else natToDigits (m / 10 ^ k) ++ '.' :: zeroPad k (m % 10 ^ k))

/-- String-body escaping of `JSON.stringify`: `"` and `\` get a backslash;
other characters are carried verbatim. -/
def escapeChars : List Char → List Char
  | [] => []
  | c :: t => (if c = '"' ∨ c = '\\' then ['\\', c] else [c]) ++ escapeChars t

/-- The characters `JSON.stringify` emits for a string value. -/
def encString (s : String) : List Char :=
  '"' :: (escapeChars s.data ++ ['"'])

/-- Literal character runs of the serialized object form
`\x7b"rating":<number>,"comment":<string>\x7d`. -/
def ratingKeyChars : List Char :=
  ['\x7b', '"', 'r', 'a', 't', 'i', 'n', 'g', '"', ':']

/-- Literal characters between the rating value and the comment value. -/
def commentKeyChars : List Char :=
  [',', '"', 'c', 'o', 'm', 'm', 'e', 'n', 't', '"', ':']

/-- The characters `JSON.stringify` emits for one review object
(object keys in insertion order: `rating`, then `comment`). -/
def encReview (r : Review) : List Char :=
  ratingKeyChars ++ encNumber r.rating ++ commentKeyChars ++
    encString r.comment ++ ['\x7d']

/-- Elements of the serialized array after the opening bracket:
comma-separated review objects followed by the closing bracket. -/
def encReviewTail : List Review → List Char
  | [] => [']']
  | r :: rs => ',' :: (encReview r ++ encReviewTail rs)

/-- The characters `JSON.stringify` emits for a review array. -/
def encReviewsChars : List Review → List Char
  | [] => ['[', ']']
  | r :: rs => '[' :: (encReview r ++ encReviewTail rs)

/-- `JSON.stringify(reviews)` for a `Review[]` value. -/
def jsonStringifyReviews (l : List Review) : String :=
  String.mk (encReviewsChars l)

/-- Consume an expected literal character run. -/
def parseExact : List Char → List Char → Option (List Char)
  | [], l => some l
  | _ :: _, [] => none
  | c :: t, x :: xs => if x = c then parseExact t xs else none

/-- Consume an unsigned JSON number: a digit run and an optional fractional
digit run.  Returns its exact rational value. -/
def parseUnsignedNum (s : List Char) : Option (ℚ × List Char) :=
  let ds := s.takeWhile Char.isDigit
  if ds = [] then none
  else
    let s₂ := s.dropWhile Char.isDigit
    let ip := natOfDigits ds
    if s₂.head? = some '.' then
      let s₃ := s₂.tail
      let fs := s₃.takeWhile Char.isDigit
      if fs = [] then none
      else
        some (((ip * 10 ^ fs.length + natOfDigits fs : ℕ) : ℚ) / 10 ^ fs.length,
          s₃.dropWhile Char.isDigit)
    else some ((ip : ℚ), s₂)

/-- Consume a JSON number: optional minus sign, then an unsigned number.
Returns its exact rational value. -/
def parseNumber (s : List Char) : Option (ℚ × List Char) :=
  if s.head? = some '-' then (fun p => (-p.1, p.2)) <$> parseUnsignedNum s.tail
  else parseUnsignedNum s

/-- Consume a JSON string literal body up to the closing quote, undoing the
backslash escapes of `escapeChars`. -/
def parseStrBody : List Char → Option (List Char × List Char)
  | [] => none
  | c :: t =>
    if c = '"' then some ([], t)
    else if c = '\\' then
      if ht : t = [] then none
      else
        let e := t.head ht
        if e = '"' ∨ e = '\\' then
          (fun p => (e :: p.1, p.2)) <$> parseStrBody t.tail
        else none
    else (fun p => (c :: p.1, p.2)) <$> parseStrBody t
termination_by l => l.length
decreasing_by
  · simp [List.length_tail]
    omega
  · simp

/-- Consume a JSON string literal (opening quote, body, closing quote). -/
def parseStringLit (l : List Char) : Option (String × List Char) :=
  if l.head? = some '"' then
    (fun p => (String.mk p.1, p.2)) <$> parseStrBody l.tail
  else none

/-- Consume one serialized review object. -/
def parseReview (l : List Char) : Option (Review × List Char) := do
  let l₁ ← parseExact ratingKeyChars l
  let (q, l₂) ← parseNumber l₁
  let l₃ ← parseExact commentKeyChars l₂
  let (s, l₄) ← parseStringLit l₃
  let l₅ ← parseExact ['\x7d'] l₄
  some (⟨q, s⟩, l₅)

/-- Consume a comma-separated run of review objects up to the closing
bracket (the part of a nonempty serialized array after `[`).  The fuel
argument only forces termination; any fuel above the element count works. -/
def parseReviewSeq : ℕ → List Char → Option (List Review × List Char)
  | 0, _ => none
  | fuel + 1, l => do
    let (r, l₁) ← parseReview l
    if l₁.head? = some ']' then some ([r], l₁.tail)
    else if l₁.head? = some ',' then do
      let (rs, l₃) ← parseReviewSeq fuel l₁.tail
      some (r :: rs, l₃)
    else none

/-- The error message of a JSON syntax error (the model folds the various
`SyntaxError` messages of `JSON.parse` into one). -/
def jsonErrMsg : String := "Unexpected token"

/-- `JSON.parse(s) as Review[]`: succeeds exactly on the serialized form of
a review array, with `Except.error` where `JSON.parse` would throw. -/
def jsonParseReviews (s : String) : Except String (List Review) :=
  if s.data.head? = some '[' then
    let rest := s.data.tail
    if rest.head? = some ']' then
      if rest.tail = [] then .ok [] else .error jsonErrMsg
    else
      match parseReviewSeq (rest.length + 1) rest with
      | some (rs, []) => .ok rs
      | _ => .error jsonErrMsg
  else .error jsonErrMsg

/-- The storage key `` `movie-reviews-$\x7bmovieId\x7d` ``. -/
def storageKey (movieId : ℤ) : String :=
  "movie-reviews-" ++ toString movieId

/-- Source: `loadReviewsFromLocalStorage` — reads the key for the movie;
a missing entry (and, by falsiness, an empty string) yields `[]`, any other
value is handed to `JSON.parse`, whose exception propagates as `.error`. -/
def loadReviewsFromLocalStorage (movieId : ℤ) (st : Store) :
    Except String (List Review) :=
  match st (storageKey movieId) with
  | none => .ok []
  | some s => if s = "" then .ok [] else jsonParseReviews s

/-- Source: `saveReviewsToLocalStorage` — overwrites the key for the movie
with `JSON.stringify(reviews)`. -/
def saveReviewsToLocalStorage (movieId : ℤ) (reviews : List Review)
    (st : Store) : Store :=
  fun k => if k = storageKey movieId then some (jsonStringifyReviews reviews) else st k

/-- Source: `handleReviewSubmit` — guarded by the truthiness check
`currentMovie && rating !== null && comment`; an out-of-range rating sets
the error message and returns; otherwise the new review is appended, the
collection saved, and the inputs and error message reset. -/
def handleReviewSubmit (s : ComponentState) (st : Store) :
    ComponentState × Store :=
  match s.currentMovie, s.rating with
  | some movie, some rating =>
    if s.comment = "" then (s, st)
    else if rating < 1 ∨ rating > 10 then
      ({ s with errorMessage := "Rating must be between 1 and 10." }, st)
    else
      let newReview : Review := { rating := rating, comment := s.comment }
      let updatedReviews := s.reviews ++ [newReview]
      ({ s with
          reviews := updatedReviews
          rating := none
          comment := ""
          errorMessage := "" },
        saveReviewsToLocalStorage movie.id updatedReviews st)
  | _, _ => (s, st)

/-- The comparator passed to `sort`, with JavaScript object identity of the
array elements modelled by pairing each review with its array index, so
that `reviews.indexOf(x)` is the first component of `x`. -/
def reviewCompare (sortOption : SortOption) (a b : ℕ × Review) : ℚ :=
  match sortOption with
  | .newest => (b.1 : ℚ) - (a.1 : ℚ)
  | .highest => b.2.rating - a.2.rating
  | .lowest => a.2.rating - b.2.rating

/-- Source: `sortedReviews` — `[...reviews].sort(cmp)`: a stable sort of a
copy of the collection under the selected comparator (JavaScript `sort` is
specified stable; `List.insertionSort` is the stable sort used here). -/
def sortedReviews (sortOption : SortOption) (reviews : List Review) :
    List Review :=
  ((reviews.enum).insertionSort
      (fun a b => reviewCompare sortOption a b ≤ 0)).map Prod.snd

/-- JavaScript `Math.trunc`-style truncation (`%` truncates toward zero). -/
def jsTrunc (q : ℚ) : ℤ :=
  if q < 0 then ⌈q⌉ else ⌊q⌋

/-- JavaScript `rating % 1`: remainder with the sign of the dividend. -/
def jsModOne (q : ℚ) : ℚ :=
  q - (jsTrunc q : ℚ)

/-- `Array(n).fill(0)`: a `RangeError` for a negative length, else an array
of `n` slots. -/
def jsArrayOfLen (n : ℤ) : Except String (List Unit) :=
  if n < 0 then .error "Invalid array length" else .ok (List.replicate n.toNat ())

/-- Source: `renderStars` — `fullStars = Math.floor(rating)`,
`hasHalfStar = rating % 1 >= 0.5`,
`emptyStars = Math.max(0, 10 - fullStars - (hasHalfStar ? 1 : 0))`,
rendered as full stars, an optional half star, then empty stars. -/
def renderStars (rating : ℚ) : Except String (List StarGlyph) :=
  let fullStars : ℤ := ⌊rating⌋
  let hasHalfStar : Prop := jsModOne rating ≥ 1 / 2
  let emptyStars : ℤ := max 0 (10 - fullStars - (if hasHalfStar then 1 else 0))
  do
    let fs ← jsArrayOfLen fullStars
    let es ← jsArrayOfLen emptyStars
    return (fs.map (fun _ => StarGlyph.full) ++
      (if hasHalfStar then [StarGlyph.half] else []) ++
      es.map (fun _ => StarGlyph.empty))

/-- A review collection every rating of which has a finite decimal
expansion — the well-formed collections, i.e. those whose ratings are
representable as JavaScript numbers. -/
def wellFormedReviews (l : List Review) : Prop :=
  ∀ r ∈ l, wellFormedRat r.rating

/-! ### Decimal digit lemmas -/

/-- Value of a little-endian digit list. -/
def digitsVal : List ℕ → ℕ
  | [] => 0
  | d :: ds => d + 10 * digitsVal ds

theorem digitsVal_natDigitsLE (n : ℕ) : digitsVal (natDigitsLE n) = n := by
  induction n using Nat.strong_induction_on with
  | _ n ih =>
    rw [natDigitsLE]
    split
    · simp [digitsVal]; omega
    · rename_i h
      have hlt : n / 10 < n := Nat.div_lt_self (Nat.pos_of_ne_zero h) (by omega)
      simp [digitsVal, ih _ hlt]
      omega

theorem natDigitsLE_lt (n : ℕ) : ∀ d ∈ natDigitsLE n, d < 10 := by
  induction n using Nat.strong_induction_on with
  | _ n ih =>
    rw [natDigitsLE]
    split
    · simp
    · rename_i h
      have hlt : n / 10 < n := Nat.div_lt_self (Nat.pos_of_ne_zero h) (by omega)
      intro d hd
      rcases List.mem_cons.mp hd with h1 | h2
      · omega
      · exact ih _ hlt d h2

theorem natDigitsLE_length_le (k : ℕ) (n : ℕ) (h : n < 10 ^ k) :
    (natDigitsLE n).length ≤ k := by
  induction k generalizing n with
  | zero =>
    have : n = 0 := by simpa using h
    subst this
    rw [natDigitsLE]; simp
  | succ k ih =>
    rw [natDigitsLE]
    split
    · simp
    · rename_i hn
      have : n / 10 < 10 ^ k := by
        rw [Nat.div_lt_iff_lt_mul (by omega)]
        calc n < 10 ^ (k + 1) := h
        _ = 10 ^ k * 10 := by rw [pow_succ]
      simpa using ih (n / 10) this

theorem digitChar_spec (d : ℕ) (h : d < 10) :
    (Nat.digitChar d).toNat - 48 = d ∧ (Nat.digitChar d).isDigit = true ∧
      Nat.digitChar d ≠ '-' ∧ Nat.digitChar d ≠ '.' := by
  interval_cases d <;> exact ⟨by decide, by decide, by decide, by decide⟩

theorem foldl_digits (ds : List ℕ) (h : ∀ d ∈ ds, d < 10) (acc : ℕ) :
    List.foldl (fun a c => a * 10 + (c.toNat - 48)) acc
      ((ds.reverse).map Nat.digitChar) = acc * 10 ^ ds.length + digitsVal ds := by
  induction ds generalizing acc with
  | nil => simp [digitsVal]
  | cons d t ih =>
    have hd : d < 10 := h d (by simp)
    have ht : ∀ d ∈ t, d < 10 := fun x hx => h x (by simp [hx])
    simp only [List.reverse_cons, List.map_append, List.foldl_append, ih ht acc,
      List.map_cons, List.map_nil, List.foldl_cons, List.foldl_nil, digitsVal]
    rw [(digitChar_spec d hd).1, List.length_cons, pow_succ]
    ring

theorem natOfDigits_natToDigits (n : ℕ) : natOfDigits (natToDigits n) = n := by
  unfold natToDigits
  split
  · rename_i h; subst h; decide
  · unfold natOfDigits
    rw [foldl_digits _ (natDigitsLE_lt n)]
    simp [digitsVal_natDigitsLE]

theorem natToDigits_all_digit (n : ℕ) : ∀ c ∈ natToDigits n, c.isDigit = true := by
  unfold natToDigits
  split
  · intro c hc; simp at hc; subst hc; decide
  · intro c hc
    simp only [List.mem_map] at hc
    obtain ⟨d, hd, rfl⟩ := hc
    exact (digitChar_spec d (natDigitsLE_lt n d (List.mem_reverse.mp hd))).2.1

theorem natToDigits_ne_nil (n : ℕ) : natToDigits n ≠ [] := by
  unfold natToDigits
  split
  · simp
  · rename_i h
    intro hcontra
    have hlen : natDigitsLE n = [] := by
      simpa using congrArg List.length hcontra
    have hval := digitsVal_natDigitsLE n
    rw [hlen] at hval
    simp [digitsVal] at hval
    omega

theorem natToDigits_length_le (k n : ℕ) (hk : 1 ≤ k) (h : n < 10 ^ k) :
    (natToDigits n).length ≤ k := by
  unfold natToDigits
  split
  · simpa using hk
  · simpa using natDigitsLE_length_le k n h

theorem natOfDigits_replicate_zero (z : ℕ) (l : List Char) :
    natOfDigits (List.replicate z '0' ++ l) = natOfDigits l := by
  induction z with
  | zero => simp
  | succ z ih =>
    unfold natOfDigits at *
    simpa [List.replicate_succ] using ih

theorem zeroPad_length (k n : ℕ) (hk : 1 ≤ k) (h : n < 10 ^ k) :
    (zeroPad k n).length = k := by
  have := natToDigits_length_le k n hk h
  simp [zeroPad]
  omega

theorem zeroPad_val (k n : ℕ) : natOfDigits (zeroPad k n) = n := by
  rw [zeroPad, natOfDigits_replicate_zero, natOfDigits_natToDigits]

theorem zeroPad_all_digit (k n : ℕ) : ∀ c ∈ zeroPad k n, c.isDigit = true := by
  intro c hc
  rcases List.mem_append.mp hc with h | h
  · have := List.eq_of_mem_replicate h
    subst this; decide
  · exact natToDigits_all_digit n c h

theorem zeroPad_ne_nil (k n : ℕ) : zeroPad k n ≠ [] := by
  intro h
  exact natToDigits_ne_nil n (by simpa [zeroPad] using congrArg (List.drop (k - (natToDigits n).length)) h)

/-! ### takeWhile / dropWhile over encoded runs -/

theorem takeWhile_all_append (p : Char → Bool) (xs ys : List Char)
    (h : ∀ c ∈ xs, p c = true) :
    (xs ++ ys).takeWhile p = xs ++ ys.takeWhile p := by
  induction xs with
  | nil => simp
  | cons x t ih =>
    have hx : p x = true := h x (by simp)
    simp [List.takeWhile_cons, hx, ih (fun c hc => h c (by simp [hc]))]

theorem dropWhile_all_append (p : Char → Bool) (xs ys : List Char)
    (h : ∀ c ∈ xs, p c = true) :
    (xs ++ ys).dropWhile p = ys.dropWhile p := by
  induction xs with
  | nil => simp
  | cons x t ih =>
    have hx : p x = true := h x (by simp)
    simp [List.dropWhile_cons, hx, ih (fun c hc => h c (by simp [hc]))]

theorem takeWhile_head_false (p : Char → Bool) (ys : List Char)
    (h : ∀ c ∈ ys.head?, p c = false) : ys.takeWhile p = [] := by
  cases ys with
  | nil => rfl
  | cons y t => simp [List.takeWhile_cons, h y rfl]

theorem dropWhile_head_false (p : Char → Bool) (ys : List Char)
    (h : ∀ c ∈ ys.head?, p c = false) : ys.dropWhile p = ys := by
  cases ys with
  | nil => rfl
  | cons y t => simp [List.dropWhile_cons, h y rfl]

/-! ### Number round-trip -/

theorem den_dvd_pow10 (q : ℚ) (hq : wellFormedRat q) :
    q.den ∣ 10 ^ ratDecExp q := by
  rw [wellFormedRat] at hq
  rw [ratDecExp]
  calc q.den = 2 ^ padicCount 2 q.den * 5 ^ padicCount 5 q.den := hq
  _ ∣ 2 ^ max (padicCount 2 q.den) (padicCount 5 q.den) *
      5 ^ max (padicCount 2 q.den) (padicCount 5 q.den) :=
    mul_dvd_mul (pow_dvd_pow 2 (le_max_left _ _)) (pow_dvd_pow 5 (le_max_right _ _))
  _ = 10 ^ max (padicCount 2 q.den) (padicCount 5 q.den) := by
    rw [← Nat.mul_pow]

theorem den_eq_one_of_decExp_zero (q : ℚ) (hq : wellFormedRat q)
    (h : ratDecExp q = 0) : q.den = 1 := by
  have := den_dvd_pow10 q hq
  rw [h] at this
  simpa using this

theorem parseUnsignedNum_int (n : ℕ) (rest : List Char)
    (hrest : ∀ c ∈ rest.head?, c.isDigit = false ∧ c ≠ '.') :
    parseUnsignedNum (natToDigits n ++ rest) = some ((n : ℚ), rest) := by
  have hd : ∀ c ∈ natToDigits n, c.isDigit = true := natToDigits_all_digit n
  have htw : (natToDigits n ++ rest).takeWhile Char.isDigit = natToDigits n := by
    rw [takeWhile_all_append _ _ _ hd,
      takeWhile_head_false _ _ (fun c hc => (hrest c hc).1), List.append_nil]
  have hdw : (natToDigits n ++ rest).dropWhile Char.isDigit = rest := by
    rw [dropWhile_all_append _ _ _ hd,
      dropWhile_head_false _ _ (fun c hc => (hrest c hc).1)]
  have hdot : ¬rest.head? = some '.' := by
    cases rest with
    | nil => simp
    | cons c t =>
      simp only [List.head?_cons, Option.some.injEq]
      intro h
      exact (hrest c rfl).2 h
  rw [parseUnsignedNum]
  simp only [htw, hdw]
  rw [if_neg (natToDigits_ne_nil n), if_neg hdot, natOfDigits_natToDigits]

theorem parseUnsignedNum_frac (a b k : ℕ) (hk : 1 ≤ k) (hb : b < 10 ^ k)
    (rest : List Char) (hrest : ∀ c ∈ rest.head?, c.isDigit = false) :
    parseUnsignedNum (natToDigits a ++ '.' :: (zeroPad k b ++ rest))
      = some (((a * 10 ^ k + b : ℕ) : ℚ) / 10 ^ k, rest) := by
  have hda : ∀ c ∈ natToDigits a, c.isDigit = true := natToDigits_all_digit a
  have hdotrun : ∀ c ∈ (('.' :: (zeroPad k b ++ rest)).head?), Char.isDigit c = false := by
    intro c hc
    simp only [List.head?_cons, Option.mem_def, Option.some.injEq] at hc
    subst hc; decide
  have htw : (natToDigits a ++ '.' :: (zeroPad k b ++ rest)).takeWhile Char.isDigit
      = natToDigits a := by
    rw [takeWhile_all_append _ _ _ hda, takeWhile_head_false _ _ hdotrun,
      List.append_nil]
  have hdw : (natToDigits a ++ '.' :: (zeroPad k b ++ rest)).dropWhile Char.isDigit
      = '.' :: (zeroPad k b ++ rest) := by
    rw [dropWhile_all_append _ _ _ hda, dropWhile_head_false _ _ hdotrun]
  have hfs : (zeroPad k b ++ rest).takeWhile Char.isDigit = zeroPad k b := by
    rw [takeWhile_all_append _ _ _ (zeroPad_all_digit k b),
      takeWhile_head_false _ _ (fun c hc => (hrest c hc)), List.append_nil]
  have hfdw : (zeroPad k b ++ rest).dropWhile Char.isDigit = rest := by
    rw [dropWhile_all_append _ _ _ (zeroPad_all_digit k b),
      dropWhile_head_false _ _ (fun c hc => (hrest c hc))]
  rw [parseUnsignedNum]
  simp only [htw, hdw, List.head?_cons, List.tail_cons, hfs, hfdw]
  rw [if_neg (natToDigits_ne_nil a), if_pos trivial, if_neg (zeroPad_ne_nil k b),
    natOfDigits_natToDigits, zeroPad_length k b hk hb, zeroPad_val]

theorem parseUnsignedNum_encBody (q : ℚ) (hq : wellFormedRat q) (rest : List Char)
    (hrest : ∀ c ∈ rest.head?, c.isDigit = false ∧ c ≠ '.') :
    parseUnsignedNum
      ((if ratDecExp q = 0 then
          natToDigits (q.num.natAbs * 10 ^ ratDecExp q / q.den)
        else
          natToDigits (q.num.natAbs * 10 ^ ratDecExp q / q.den / 10 ^ ratDecExp q) ++
            '.' :: zeroPad (ratDecExp q)
              (q.num.natAbs * 10 ^ ratDecExp q / q.den % 10 ^ ratDecExp q)) ++ rest)
      = some ((q.num.natAbs : ℚ) / (q.den : ℚ), rest) := by
  have hden : 0 < q.den := q.den_pos
  have hdvd := den_dvd_pow10 q hq
  have hmmul : q.num.natAbs * 10 ^ ratDecExp q / q.den * q.den
      = q.num.natAbs * 10 ^ ratDecExp q :=
    Nat.div_mul_cancel (Dvd.dvd.mul_left hdvd _)
  by_cases hk0 : ratDecExp q = 0
  · rw [if_pos hk0]
    rw [parseUnsignedNum_int _ rest hrest]
    have hden1 : q.den = 1 := den_eq_one_of_decExp_zero q hq hk0
    have : q.num.natAbs * 10 ^ ratDecExp q / q.den = q.num.natAbs := by
      rw [hk0, hden1]; simp
    rw [this, hden1]
    norm_num
  · rw [if_neg hk0]
    have hk1 : 1 ≤ ratDecExp q := Nat.one_le_iff_ne_zero.mpr hk0
    have hb : q.num.natAbs * 10 ^ ratDecExp q / q.den % 10 ^ ratDecExp q
        < 10 ^ ratDecExp q := Nat.mod_lt _ (by positivity)
    rw [List.append_assoc, List.cons_append]
    rw [parseUnsignedNum_frac _ _ _ hk1 hb rest (fun c hc => (hrest c hc).1)]
    have hsum : q.num.natAbs * 10 ^ ratDecExp q / q.den / 10 ^ ratDecExp q *
          10 ^ ratDecExp q +
        q.num.natAbs * 10 ^ ratDecExp q / q.den % 10 ^ ratDecExp q
        = q.num.natAbs * 10 ^ ratDecExp q / q.den := by
      rw [Nat.mul_comm]; exact Nat.div_add_mod _ _
    have hval : ((q.num.natAbs * 10 ^ ratDecExp q / q.den : ℕ) : ℚ) /
        10 ^ ratDecExp q = (q.num.natAbs : ℚ) / q.den := by
      rw [div_eq_div_iff (by positivity) (by exact_mod_cast hden.ne')]
      exact_mod_cast hmmul
    rw [hsum, hval]

theorem head_not_minus (l : List Char) (h : ∀ c ∈ l.head?, c.isDigit = true) :
    ¬l.head? = some '-' := by
  intro he
  have := h '-' (by simp [he])
  exact absurd this (by decide)

theorem natToDigits_append_head_digit (n : ℕ) (l : List Char) :
    ∀ c ∈ (natToDigits n ++ l).head?, c.isDigit = true := by
  intro c hc
  cases hnd : natToDigits n with
  | nil => exact absurd hnd (natToDigits_ne_nil n)
  | cons c0 t =>
    rw [hnd, List.cons_append, List.head?_cons] at hc
    simp only [Option.mem_def, Option.some.injEq] at hc
    subst hc
    exact natToDigits_all_digit n c0 (by rw [hnd]; simp)

theorem encBody_head_digit (q : ℚ) (rest : List Char) :
    ∀ c ∈ ((if ratDecExp q = 0 then
        natToDigits (q.num.natAbs * 10 ^ ratDecExp q / q.den)
      else
        natToDigits (q.num.natAbs * 10 ^ ratDecExp q / q.den / 10 ^ ratDecExp q) ++
          '.' :: zeroPad (ratDecExp q)
            (q.num.natAbs * 10 ^ ratDecExp q / q.den % 10 ^ ratDecExp q)) ++
        rest).head?, c.isDigit = true := by
  by_cases hk0 : ratDecExp q = 0
  · rw [if_pos hk0]; exact natToDigits_append_head_digit _ _
  · rw [if_neg hk0, List.append_assoc, List.cons_append]
    exact natToDigits_append_head_digit _ _

theorem parseNumber_enc (q : ℚ) (hq : wellFormedRat q) (rest : List Char)
    (hrest : ∀ c ∈ rest.head?, c.isDigit = false ∧ c ≠ '.') :
    parseNumber (encNumber q ++ rest) = some (q, rest) := by
  have hbody := parseUnsignedNum_encBody q hq rest hrest
  simp only [encNumber]
  by_cases hneg : q.num < 0
  · rw [if_pos hneg]
    simp only [List.cons_append, List.nil_append]
    rw [parseNumber]
    simp only [List.head?_cons, List.tail_cons]
    rw [if_pos trivial, hbody]
    have habs : (q.num.natAbs : ℚ) = -(q.num : ℚ) := by
      have h : (q.num.natAbs : ℤ) = -q.num := by omega
      calc (q.num.natAbs : ℚ) = ((q.num.natAbs : ℤ) : ℚ) := (Int.cast_natCast _).symm
      _ = ((-q.num : ℤ) : ℚ) := by rw [h]
      _ = -(q.num : ℚ) := by push_cast; ring
    simp only [Option.map_eq_map, Option.map_some']
    rw [habs, neg_div, neg_neg, Rat.num_div_den]
  · rw [if_neg hneg]
    simp only [List.nil_append]
    rw [parseNumber, if_neg (head_not_minus _ (encBody_head_digit q rest)), hbody]
    have habs : (q.num.natAbs : ℚ) = (q.num : ℚ) := by
      have h : (q.num.natAbs : ℤ) = q.num := by omega
      calc (q.num.natAbs : ℚ) = ((q.num.natAbs : ℤ) : ℚ) := (Int.cast_natCast _).symm
      _ = (q.num : ℚ) := by rw [h]
    rw [habs, Rat.num_div_den]

/-! ### String and review round-trip -/

theorem parseStrBody_escape (cs rest : List Char) :
    parseStrBody (escapeChars cs ++ '"' :: rest) = some (cs, rest) := by
  induction cs with
  | nil =>
    rw [escapeChars, List.nil_append, parseStrBody]
    simp
  | cons c t ih =>
    rw [escapeChars]
    by_cases hc : c = '"' ∨ c = '\\'
    · rw [if_pos hc]
      simp only [List.cons_append, List.nil_append]
      rw [parseStrBody]
      rw [if_neg (show ¬('\\' = '"') by decide), if_pos rfl,
        dif_neg (List.cons_ne_nil c (escapeChars t ++ '"' :: rest))]
      simp only [List.head_cons, List.tail_cons]
      rw [if_pos hc, ih]
      rfl
    · rw [if_neg hc]
      simp only [List.cons_append, List.nil_append]
      rw [parseStrBody]
      have h1 : c ≠ '"' := fun h => hc (Or.inl h)
      have h2 : c ≠ '\\' := fun h => hc (Or.inr h)
      rw [if_neg h1, if_neg h2, ih]
      rfl

theorem parseStringLit_enc (s : String) (rest : List Char) :
    parseStringLit (encString s ++ rest) = some (s, rest) := by
  rw [encString]
  simp only [List.cons_append, List.append_assoc, List.singleton_append]
  rw [parseStringLit]
  simp only [List.head?_cons, List.tail_cons]
  rw [if_pos trivial, List.nil_append, parseStrBody_escape]
  rfl

theorem parseExact_append (lit rest : List Char) :
    parseExact lit (lit ++ rest) = some rest := by
  induction lit with
  | nil => rfl
  | cons c t ih =>
    rw [List.cons_append, parseExact]
    simp [ih]

theorem parseReview_enc (r : Review) (hwf : wellFormedRat r.rating)
    (rest : List Char) :
    parseReview (encReview r ++ rest) = some (r, rest) := by
  rw [encReview, parseReview]
  simp only [List.append_assoc, List.singleton_append]
  rw [parseExact_append]
  simp only [Option.bind_eq_bind, Option.some_bind]
  rw [parseNumber_enc r.rating hwf _ (by intro c hc; simp [commentKeyChars] at hc; subst hc; exact ⟨by decide, by decide⟩)]
  simp only [Option.some_bind]
  rw [parseExact_append]
  simp only [Option.some_bind]
  rw [parseStringLit_enc]
  simp only [Option.some_bind]
  simp [parseExact]

theorem encReviewTail_length (rs : List Review) :
    rs.length + 1 ≤ (encReviewTail rs).length := by
  induction rs with
  | nil => rw [encReviewTail]; simp
  | cons r' rs' ih =>
    rw [encReviewTail]
    simp only [List.length_cons, List.length_append]
    omega

theorem parseReviewSeq_enc (rs : List Review) (r : Review) (fuel : ℕ)
    (rest : List Char) (hwf : wellFormedRat r.rating)
    (hwfs : ∀ x ∈ rs, wellFormedRat x.rating)
    (hfuel : rs.length + 1 ≤ fuel) :
    parseReviewSeq fuel (encReview r ++ (encReviewTail rs ++ rest))
      = some (r :: rs, rest) := by
  induction rs generalizing r fuel with
  | nil =>
    cases fuel with
    | zero => omega
    | succ f =>
      rw [parseReviewSeq, encReviewTail]
      simp only [List.singleton_append]
      rw [parseReview_enc r hwf]
      simp only [Option.bind_eq_bind, Option.some_bind, List.head?_cons,
        List.tail_cons]
      rw [if_pos trivial]
  | cons r' rs' ih =>
    cases fuel with
    | zero => simp at hfuel
    | succ f =>
      rw [parseReviewSeq, encReviewTail]
      simp only [List.cons_append, List.append_assoc]
      rw [parseReview_enc r hwf]
      simp only [Option.bind_eq_bind, Option.some_bind, List.head?_cons,
        List.tail_cons]
      rw [if_neg (show ¬((some ',' : Option Char) = some ']') from by decide),
        if_pos trivial,
        ih r' f (hwfs r' (by simp)) (fun x hx => hwfs x (by simp [hx]))
          (by simp at hfuel; omega)]
      rfl

theorem stringMk_data (l : List Char) : (String.mk l).data = l := rfl

theorem encReview_head (r : Review) : ∃ t, encReview r = '\x7b' :: t :=
  ⟨_, rfl⟩

theorem jsonStringifyReviews_ne_empty (R : List Review) :
    jsonStringifyReviews R ≠ "" := by
  cases R with
  | nil => decide
  | cons r rs =>
    rw [jsonStringifyReviews, encReviewsChars]
    intro h
    have hd := congrArg String.data h
    rw [stringMk_data] at hd
    simp at hd

theorem jsonParseReviews_stringify (R : List Review) (hwf : wellFormedReviews R) :
    jsonParseReviews (jsonStringifyReviews R) = .ok R := by
  cases R with
  | nil => rfl
  | cons r rs =>
    obtain ⟨tl, htl⟩ := encReview_head r
    rw [jsonStringifyReviews, encReviewsChars, jsonParseReviews]
    simp only [stringMk_data, List.head?_cons, List.tail_cons]
    rw [if_pos trivial]
    have hhd : (encReview r ++ encReviewTail rs).head? = some '\x7b' := by
      rw [htl, List.cons_append, List.head?_cons]
    rw [hhd]
    rw [if_neg (show ¬((some '\x7b' : Option Char) = some ']') from by decide)]
    have hfuel : rs.length + 1 ≤ (encReview r ++ encReviewTail rs).length + 1 := by
      have := encReviewTail_length rs
      simp only [List.length_append]
      omega
    have hrw : encReview r ++ encReviewTail rs
        = encReview r ++ (encReviewTail rs ++ []) := by
      rw [List.append_nil]
    rw [show parseReviewSeq ((encReview r ++ encReviewTail rs).length + 1)
          (encReview r ++ encReviewTail rs) = some (r :: rs, []) from by
        rw [hrw]
        exact parseReviewSeq_enc rs r _ [] (hwf r (by simp))
          (fun x hx => hwf x (by simp [hx])) (by simpa using hfuel)]

/-- Round-trip of the review store: a well-formed collection saved for a
movie id is loaded back unchanged. -/
theorem load_after_save (movieId : ℤ) (st : Store) (R : List Review)
    (hwf : wellFormedReviews R) :
    loadReviewsFromLocalStorage movieId (saveReviewsToLocalStorage movieId R st)
      = .ok R := by
  rw [loadReviewsFromLocalStorage, saveReviewsToLocalStorage]
  simp only [if_pos rfl]
  rw [if_pos trivial]
  show (if jsonStringifyReviews R = "" then Except.ok []
    else jsonParseReviews (jsonStringifyReviews R)) = Except.ok R
  rw [if_neg (jsonStringifyReviews_ne_empty R)]
  exact jsonParseReviews_stringify R hwf

/-! ### Well-formed rationals -/

theorem padicCount_one (p : ℕ) : padicCount p 1 = 0 := by
  rw [padicCount, dif_neg]
  rintro ⟨h1, h2, h3⟩
  rw [Nat.mod_eq_of_lt (by omega)] at h3
  omega

theorem wellFormedRat_of_den_one (q : ℚ) (h : q.den = 1) : wellFormedRat q := by
  rw [wellFormedRat, h, padicCount_one, padicCount_one]
  simp

theorem wellFormedRat_intCast (n : ℤ) : wellFormedRat (n : ℚ) :=
  wellFormedRat_of_den_one _ (Rat.den_intCast n)

/-! ### Star rendering -/

theorem renderStars_eq_of_nonneg (q : ℚ) (h : 0 ≤ q) :
    renderStars q = .ok (List.replicate ⌊q⌋.toNat StarGlyph.full ++
      (if jsModOne q ≥ 1 / 2 then [StarGlyph.half] else []) ++
      List.replicate
        (max 0 (10 - ⌊q⌋ - (if jsModOne q ≥ 1 / 2 then 1 else 0))).toNat
        StarGlyph.empty) := by
  have h1 : ¬(⌊q⌋ < 0) := not_lt.2 (Int.floor_nonneg.mpr h)
  have h2 : ¬((max 0 (10 - ⌊q⌋ - (if jsModOne q ≥ 1 / 2 then 1 else 0)) : ℤ) < 0) :=
    not_lt.2 (le_max_left _ _)
  rw [renderStars]
  simp only [jsArrayOfLen, if_neg h1, if_neg h2]
  show (pure (((List.replicate ⌊q⌋.toNat ()).map (fun _ => StarGlyph.full) ++
      (if jsModOne q ≥ 1 / 2 then [StarGlyph.half] else [])) ++
      (List.replicate
        (max 0 (10 - ⌊q⌋ - (if jsModOne q ≥ 1 / 2 then 1 else 0))).toNat
        ()).map (fun _ => StarGlyph.empty)) : Except String (List StarGlyph)) = _
  rw [List.map_replicate, List.map_replicate]
  rfl

theorem renderStars_error_of_neg (q : ℚ) (h : q < 0) :
    renderStars q = .error "Invalid array length" := by
  have h1 : ⌊q⌋ < 0 := Int.floor_lt.mpr (by exact_mod_cast h)
  rw [renderStars]
  simp only [jsArrayOfLen, if_pos h1]
  rfl

/-! ### Sorting -/

theorem newest_compare_le (a b : ℕ × Review) :
    reviewCompare .newest a b ≤ 0 ↔ b.1 ≤ a.1 := by
  rw [reviewCompare]
  rw [sub_nonpos]
  exact_mod_cast Iff.rfl

theorem highest_compare_le (a b : ℕ × Review) :
    reviewCompare .highest a b ≤ 0 ↔ b.2.rating ≤ a.2.rating := by
  rw [reviewCompare, sub_nonpos]

theorem lowest_compare_le (a b : ℕ × Review) :
    reviewCompare .lowest a b ≤ 0 ↔ a.2.rating ≤ b.2.rating := by
  rw [reviewCompare, sub_nonpos]

theorem sortedReviews_newest_eq_reverse (l : List Review) :
    sortedReviews .newest l = l.reverse := by
  rw [sortedReviews]
  have hperm : List.Perm (l.enum.insertionSort
      (fun a b => reviewCompare .newest a b ≤ 0)) l.enum :=
    List.perm_insertionSort _ _
  have hsorted : (l.enum.insertionSort
      (fun a b => reviewCompare .newest a b ≤ 0)).Pairwise
        (fun a b => reviewCompare .newest a b ≤ 0) :=
    @List.sorted_insertionSort _ _ _
      ⟨fun a b => by
        rcases Nat.le_total b.1 a.1 with h | h
        · exact Or.inl ((newest_compare_le a b).mpr h)
        · exact Or.inr ((newest_compare_le b a).mpr h)⟩
      ⟨fun a b c hab hbc => (newest_compare_le a c).mpr
        (le_trans ((newest_compare_le b c).mp hbc)
          ((newest_compare_le a b).mp hab))⟩
      l.enum
  have hnodup : ((l.enum.insertionSort
      (fun a b => reviewCompare .newest a b ≤ 0)).map Prod.fst).Nodup := by
    have hp : List.Perm ((l.enum.insertionSort
        (fun a b => reviewCompare .newest a b ≤ 0)).map Prod.fst)
        (l.enum.map Prod.fst) := hperm.map Prod.fst
    rw [hp.nodup_iff, List.enum_map_fst]
    exact List.nodup_range _
  have hstrict : (l.enum.insertionSort
      (fun a b => reviewCompare .newest a b ≤ 0)).Pairwise
        (fun a b => b.1 < a.1) := by
    have hne : (l.enum.insertionSort
        (fun a b => reviewCompare .newest a b ≤ 0)).Pairwise
          (fun a b => a.1 ≠ b.1) := List.pairwise_map.mp hnodup
    exact (hsorted.and hne).imp (fun h =>
      lt_of_le_of_ne ((newest_compare_le _ _).mp h.1) (Ne.symm h.2))
  have hrevstrict : (l.enum.reverse).Pairwise (fun a b => b.1 < a.1) := by
    rw [List.pairwise_reverse]
    have : (l.enum.map Prod.fst).Pairwise (· < ·) := by
      rw [List.enum_map_fst]; exact List.pairwise_lt_range _
    exact List.pairwise_map.mp this
  have heq : l.enum.insertionSort
      (fun a b => reviewCompare .newest a b ≤ 0) = l.enum.reverse := by
    haveI : IsAntisymm (ℕ × Review) (fun a b => b.1 < a.1) :=
      ⟨fun a b h1 h2 => absurd (lt_trans h1 h2) (lt_irrefl _)⟩
    exact List.eq_of_perm_of_sorted
      (hperm.trans (l.enum.reverse_perm).symm) hstrict hrevstrict
  rw [heq, List.map_reverse, List.enum_map_snd]

theorem sortedReviews_highest_spec (l : List Review) :
    List.Perm (sortedReviews .highest l) l ∧
      (sortedReviews .highest l).Pairwise (fun a b => b.rating ≤ a.rating) := by
  constructor
  · have hp := (List.perm_insertionSort
      (fun a b : ℕ × Review => reviewCompare .highest a b ≤ 0) l.enum).map Prod.snd
    rw [List.enum_map_snd] at hp
    exact hp
  · have hsorted := @List.sorted_insertionSort _
      (fun a b : ℕ × Review => reviewCompare .highest a b ≤ 0) _
      ⟨fun a b => by
        rcases le_total b.2.rating a.2.rating with h | h
        · exact Or.inl ((highest_compare_le a b).mpr h)
        · exact Or.inr ((highest_compare_le b a).mpr h)⟩
      ⟨fun a b c hab hbc => (highest_compare_le a c).mpr
        (le_trans ((highest_compare_le b c).mp hbc)
          ((highest_compare_le a b).mp hab))⟩
      l.enum
    rw [sortedReviews]
    exact List.pairwise_map.mpr (hsorted.imp fun h => (highest_compare_le _ _).mp h)

theorem sortedReviews_lowest_spec (l : List Review) :
    List.Perm (sortedReviews .lowest l) l ∧
      (sortedReviews .lowest l).Pairwise (fun a b => a.rating ≤ b.rating) := by
  constructor
  · have hp := (List.perm_insertionSort
      (fun a b : ℕ × Review => reviewCompare .lowest a b ≤ 0) l.enum).map Prod.snd
    rw [List.enum_map_snd] at hp
    exact hp
  · have hsorted := @List.sorted_insertionSort _
      (fun a b : ℕ × Review => reviewCompare .lowest a b ≤ 0) _
      ⟨fun a b => by
        rcases le_total a.2.rating b.2.rating with h | h
        · exact Or.inl ((lowest_compare_le a b).mpr h)
        · exact Or.inr ((lowest_compare_le b a).mpr h)⟩
      ⟨fun a b c hab hbc => (lowest_compare_le a c).mpr
        (le_trans ((lowest_compare_le a b).mp hab)
          ((lowest_compare_le b c).mp hbc))⟩
      l.enum
    rw [sortedReviews]
    exact List.pairwise_map.mpr (hsorted.imp fun h => (lowest_compare_le _ _).mp h)

/-! ### Claim theorems -/

/-- C1: for every stored collection `C` for a movie id and every valid
review (integer rating in [1,10], non-empty comment), submitting appends
it: the collection saved and then loaded for that id is `C ++ [r]`, the
in-memory list becomes `C ++ [r]`, and on success the rating input is
reset to `none`, the comment input to `""`, and any prior error message is
cleared. -/
theorem c1_valid_submit_appends_and_resets (s : ComponentState) (st : Store)
    (movie : Movie) (rq : ℚ) (n : ℤ)
    (hm : s.currentMovie = some movie) (hr : s.rating = some rq)
    (hn : rq = (n : ℚ)) (h1 : 1 ≤ rq) (h10 : rq ≤ 10) (hc : s.comment ≠ "")
    (hsync : loadReviewsFromLocalStorage movie.id st = .ok s.reviews)
    (hwf : wellFormedReviews s.reviews) :
    loadReviewsFromLocalStorage movie.id (handleReviewSubmit s st).2
        = .ok (s.reviews ++ [{ rating := rq, comment := s.comment }]) ∧
      (handleReviewSubmit s st).1.reviews
        = s.reviews ++ [{ rating := rq, comment := s.comment }] ∧
      (handleReviewSubmit s st).1.rating = none ∧
      (handleReviewSubmit s st).1.comment = "" ∧
      (handleReviewSubmit s st).1.errorMessage = "" := by
  have hwf' : wellFormedReviews
      (s.reviews ++ [{ rating := rq, comment := s.comment }]) := by
    intro r hr'
    rcases List.mem_append.mp hr' with h | h
    · exact hwf r h
    · rcases List.mem_singleton.mp h with rfl
      rw [hn]
      exact wellFormedRat_intCast n
  have hrange : ¬(rq < 1 ∨ rq > 10) := by
    rw [not_or]
    exact ⟨not_lt.mpr h1, not_lt.mpr h10⟩
  obtain ⟨cm, rat, com, revs, err⟩ := s
  simp only at hm hr hc hsync hwf hwf'
  subst hm
  subst hr
  simp only [handleReviewSubmit, if_neg hc, if_neg hrange]
  exact ⟨load_after_save movie.id st _ hwf', trivial, trivial, trivial, trivial⟩

/-- C1 witness: a concrete valid submission on an empty stored collection. -/
theorem c1_valid_submit_appends_and_resets_witness :
    loadReviewsFromLocalStorage 1
        (handleReviewSubmit
          ⟨some ⟨1, "T", "O", "P", 5⟩, some 7, "Great movie", [], ""⟩
          (fun _ => none)).2
      = .ok [{ rating := 7, comment := "Great movie" }] ∧
    (handleReviewSubmit
        ⟨some ⟨1, "T", "O", "P", 5⟩, some 7, "Great movie", [], ""⟩
        (fun _ => none)).1.rating = none := by
  have h := c1_valid_submit_appends_and_resets
    ⟨some ⟨1, "T", "O", "P", 5⟩, some 7, "Great movie", [], ""⟩
    (fun _ => none) ⟨1, "T", "O", "P", 5⟩ 7 7 rfl rfl (by norm_num)
    (by norm_num) (by norm_num) (by decide) rfl
    (fun r hr' => absurd hr' (List.not_mem_nil r))
  exact ⟨h.1, h.2.2.1⟩

/-- C2 counterexample: a stored value that is present and not parseable
makes `load` raise a parse error instead of returning the empty
collection — refuting both "returns the empty sequence when the stored
value is not parseable" and "never raises". -/
theorem c2_counterexample_load_raises :
    loadReviewsFromLocalStorage 1
        (fun k => if k = storageKey 1 then some "x" else none)
      = .error jsonErrMsg := by
  rfl

/-- C2 (amended): `load` returns the empty collection when no entry exists
(or the entry is the empty string, which is falsy); for any other stored
value it returns the result of `JSON.parse`, which raises on an
unparseable value rather than returning the empty collection. -/
theorem c2_amended_load_behavior (movieId : ℤ) (st : Store) :
    (st (storageKey movieId) = none →
      loadReviewsFromLocalStorage movieId st = .ok []) ∧
    (st (storageKey movieId) = some "" →
      loadReviewsFromLocalStorage movieId st = .ok []) ∧
    (∀ v, st (storageKey movieId) = some v → v ≠ "" →
      loadReviewsFromLocalStorage movieId st = jsonParseReviews v) := by
  refine ⟨fun h => ?_, fun h => ?_, fun v h hv => ?_⟩
  · rw [loadReviewsFromLocalStorage, h]
  · rw [loadReviewsFromLocalStorage, h]
    show (if ("" : String) = "" then Except.ok [] else jsonParseReviews "")
      = Except.ok []
    rw [if_pos rfl]
  · rw [loadReviewsFromLocalStorage, h]
    show (if v = "" then Except.ok [] else jsonParseReviews v) = jsonParseReviews v
    rw [if_neg hv]

/-- C2 witness: the amended behaviour at a concrete empty store. -/
theorem c2_amended_load_behavior_witness :
    loadReviewsFromLocalStorage 1 (fun _ => none) = .ok [] :=
  (c2_amended_load_behavior 1 (fun _ => none)).1 rfl

/-- C3: round-trip — for every movie id and well-formed review collection
`R`, loading after saving returns exactly `R`. -/
theorem c3_load_after_save_roundtrip (movieId : ℤ) (st : Store)
    (R : List Review) (hwf : wellFormedReviews R) :
    loadReviewsFromLocalStorage movieId (saveReviewsToLocalStorage movieId R st)
      = .ok R :=
  load_after_save movieId st R hwf

/-- C3 witness: a concrete round-trip through the serialized string,
including a comment that needs escaping. -/
theorem c3_load_after_save_roundtrip_witness :
    loadReviewsFromLocalStorage 1
        (saveReviewsToLocalStorage 1
          [{ rating := 5, comment := "Great movie!" },
            { rating := 9, comment := "has \" quote and \\ backslash" }]
          (fun _ => none))
      = .ok [{ rating := 5, comment := "Great movie!" },
          { rating := 9, comment := "has \" quote and \\ backslash" }] := by
  have hwf : wellFormedReviews
      [{ rating := 5, comment := "Great movie!" },
        { rating := 9, comment := "has \" quote and \\ backslash" }] := by
    intro r hr
    rcases List.mem_cons.mp hr with h | h
    · subst h; exact wellFormedRat_of_den_one _ (by decide)
    · rcases List.mem_singleton.mp h with rfl
      exact wellFormedRat_of_den_one _ (by decide)
  exact c3_load_after_save_roundtrip 1 (fun _ => none) _ hwf

/-- C4: a submission with a selected movie, non-empty comment and a
non-null rating outside [1,10] is blocked: the validation message is set,
no save happens, and both the stored and the in-memory collections are
unchanged. -/
theorem c4_out_of_range_rating_blocked (s : ComponentState) (st : Store)
    (movie : Movie) (rq : ℚ)
    (hm : s.currentMovie = some movie) (hr : s.rating = some rq)
    (hc : s.comment ≠ "") (hrange : rq < 1 ∨ rq > 10) :
    handleReviewSubmit s st
        = ({ s with errorMessage := "Rating must be between 1 and 10." }, st) ∧
      (handleReviewSubmit s st).2 = st ∧
      (handleReviewSubmit s st).1.reviews = s.reviews := by
  obtain ⟨cm, rat, com, revs, err⟩ := s
  simp only at hm hr hc
  subst hm
  subst hr
  simp only [handleReviewSubmit, if_neg hc, if_pos hrange]
  exact ⟨trivial, trivial, trivial⟩

/-- C4 witness: submitting rating 0 with a comment present. -/
theorem c4_out_of_range_rating_blocked_witness :
    handleReviewSubmit
        ⟨some ⟨1, "T", "O", "P", 5⟩, some 0, "bad", [], ""⟩ (fun _ => none)
      = (⟨some ⟨1, "T", "O", "P", 5⟩, some 0, "bad", [],
          "Rating must be between 1 and 10."⟩, fun _ => none) :=
  (c4_out_of_range_rating_blocked
    ⟨some ⟨1, "T", "O", "P", 5⟩, some 0, "bad", [], ""⟩ (fun _ => none)
    ⟨1, "T", "O", "P", 5⟩ 0 rfl rfl (by decide) (Or.inl (by norm_num))).1

/-- C5: a submission with an empty comment (and a valid non-null rating)
is a complete silent no-op: component state and store are both unchanged,
so no save happens and no error message is produced. -/
theorem c5_empty_comment_silent_noop (s : ComponentState) (st : Store)
    (rq : ℚ) (hr : s.rating = some rq) (_h1 : 1 ≤ rq) (_h10 : rq ≤ 10)
    (hc : s.comment = "") :
    handleReviewSubmit s st = (s, st) := by
  obtain ⟨cm, rat, com, revs, err⟩ := s
  simp only at hr hc
  subst hr
  subst hc
  cases cm with
  | none => rfl
  | some movie => simp [handleReviewSubmit]

/-- C5 witness: an empty comment with rating 5 changes nothing. -/
theorem c5_empty_comment_silent_noop_witness :
    handleReviewSubmit
        ⟨some ⟨1, "T", "O", "P", 5⟩, some 5, "", [], ""⟩ (fun _ => none)
      = (⟨some ⟨1, "T", "O", "P", 5⟩, some 5, "", [], ""⟩, fun _ => none) :=
  c5_empty_comment_silent_noop
    ⟨some ⟨1, "T", "O", "P", 5⟩, some 5, "", [], ""⟩ (fun _ => none) 5
    rfl (by norm_num) (by norm_num) rfl

/-- C9: with no movie selected or a null rating, `handleReviewSubmit` is a
complete no-op: state and store are returned unchanged, so nothing is
saved, no message is set or cleared, and the inputs keep their values. -/
theorem c9_guard_failure_complete_noop (s : ComponentState) (st : Store)
    (h : s.currentMovie = none ∨ s.rating = none) :
    handleReviewSubmit s st = (s, st) := by
  obtain ⟨cm, rat, com, revs, err⟩ := s
  rcases h with h | h
  · simp only at h
    subst h
    rfl
  · simp only at h
    subst h
    cases cm with
    | none => rfl
    | some movie => rfl

/-- C9 witness: a null movie and a null rating each leave everything
unchanged. -/
theorem c9_guard_failure_complete_noop_witness :
    handleReviewSubmit ⟨none, some 5, "c", [], "e"⟩ (fun _ => none)
        = (⟨none, some 5, "c", [], "e"⟩, fun _ => none) ∧
      handleReviewSubmit ⟨some ⟨1, "T", "O", "P", 5⟩, none, "c", [], "e"⟩
          (fun _ => none)
        = (⟨some ⟨1, "T", "O", "P", 5⟩, none, "c", [], "e"⟩, fun _ => none) :=
  ⟨c9_guard_failure_complete_noop _ _ (Or.inl rfl),
    c9_guard_failure_complete_noop _ _ (Or.inr rfl)⟩

/-- C6: sorting is computed non-destructively (the model is a pure
function of the collection, matching the copy `[...reviews]` in the
source, so the underlying collection is unchanged): `newest` is the exact
reverse of insertion order, `highest` is a permutation sorted descending
by rating, `lowest` a permutation sorted ascending; and on ratings
[3, 9, 1] the orders are [9, 3, 1] under `highest`, [1, 3, 9] under
`lowest`, and insertion order [A, B, C] reversed to [C, B, A] under
`newest`. -/
theorem c6_sorting_spec :
    (∀ l : List Review, sortedReviews .newest l = l.reverse) ∧
    (∀ l : List Review, List.Perm (sortedReviews .highest l) l ∧
      (sortedReviews .highest l).Pairwise (fun a b => b.rating ≤ a.rating)) ∧
    (∀ l : List Review, List.Perm (sortedReviews .lowest l) l ∧
      (sortedReviews .lowest l).Pairwise (fun a b => a.rating ≤ b.rating)) ∧
    sortedReviews .highest
        [{ rating := 3, comment := "A" }, { rating := 9, comment := "B" },
          { rating := 1, comment := "C" }]
      = [{ rating := 9, comment := "B" }, { rating := 3, comment := "A" },
          { rating := 1, comment := "C" }] ∧
    sortedReviews .lowest
        [{ rating := 3, comment := "A" }, { rating := 9, comment := "B" },
          { rating := 1, comment := "C" }]
      = [{ rating := 1, comment := "C" }, { rating := 3, comment := "A" },
          { rating := 9, comment := "B" }] ∧
    sortedReviews .newest
        [{ rating := 3, comment := "A" }, { rating := 9, comment := "B" },
          { rating := 1, comment := "C" }]
      = [{ rating := 1, comment := "C" }, { rating := 9, comment := "B" },
          { rating := 3, comment := "A" }] := by
  refine ⟨sortedReviews_newest_eq_reverse, sortedReviews_highest_spec,
    sortedReviews_lowest_spec, ?_, ?_, ?_⟩
  · simp [sortedReviews, List.insertionSort, List.orderedInsert, List.enum,
      List.enumFrom, reviewCompare]
    try norm_num
  · simp [sortedReviews, List.insertionSort, List.orderedInsert, List.enum,
      List.enumFrom, reviewCompare]
    try norm_num
  · simp [sortedReviews, List.insertionSort, List.orderedInsert, List.enum,
      List.enumFrom, reviewCompare]
    try norm_num

/-- C7: for every rating in [0,10], `renderStars` succeeds and produces
exactly `⌊rating⌋` full stars, then one half star iff the fractional
remainder `rating % 1` is at least one half, then
`max 0 (10 - fullStars - halfStars)` empty stars, in that order, for a
total of exactly 10 glyphs; in particular `renderStars 7` is 7 full +
3 empty, `renderStars 7.5` is 7 full + 1 half + 2 empty, and
`renderStars 10` is 10 full. -/
theorem c7_renderStars_in_range :
    (∀ q : ℚ, 0 ≤ q → q ≤ 10 →
      renderStars q = .ok (List.replicate ⌊q⌋.toNat StarGlyph.full ++
          (if jsModOne q ≥ 1 / 2 then [StarGlyph.half] else []) ++
          List.replicate
            (max 0 (10 - ⌊q⌋ - (if jsModOne q ≥ 1 / 2 then 1 else 0))).toNat
            StarGlyph.empty) ∧
        (List.replicate ⌊q⌋.toNat StarGlyph.full ++
          (if jsModOne q ≥ 1 / 2 then [StarGlyph.half] else []) ++
          List.replicate
            (max 0 (10 - ⌊q⌋ - (if jsModOne q ≥ 1 / 2 then 1 else 0))).toNat
            StarGlyph.empty).length = 10) ∧
    renderStars 7 = .ok (List.replicate 7 StarGlyph.full ++
      List.replicate 3 StarGlyph.empty) ∧
    renderStars (7.5 : ℚ) = .ok (List.replicate 7 StarGlyph.full ++
      [StarGlyph.half] ++ List.replicate 2 StarGlyph.empty) ∧
    renderStars (10 : ℚ) = .ok (List.replicate 10 StarGlyph.full) := by
  refine ⟨fun q h0 h10 => ⟨renderStars_eq_of_nonneg q h0, ?_⟩, ?_, ?_, ?_⟩
  · have hfl : (⌊q⌋ : ℚ) ≤ q := Int.floor_le q
    have hf0 : 0 ≤ ⌊q⌋ := Int.floor_nonneg.mpr h0
    have hf10 : ⌊q⌋ ≤ 10 := by
      by_contra hcon
      push_neg at hcon
      have h11 : (11 : ℤ) ≤ ⌊q⌋ := hcon
      have : ((11 : ℤ) : ℚ) ≤ q := Int.le_floor.mp h11
      norm_num at this
      linarith
    simp only [List.length_append, List.length_replicate]
    by_cases hq10 : ⌊q⌋ = 10
    · have h10le : (10 : ℚ) ≤ q := by
        have := hfl
        rw [hq10] at this
        exact_mod_cast this
      have hq : q = 10 := le_antisymm h10 h10le
      have hmod : jsModOne q = 0 := by
        rw [hq, jsModOne, jsTrunc, if_neg (by norm_num)]
        norm_num
      rw [hmod, hq10]
      norm_num
      all_goals decide
    · have hf9 : ⌊q⌋ ≤ 9 := by omega
      by_cases hmod : jsModOne q ≥ 1 / 2
      · rw [if_pos hmod, if_pos hmod]
        simp only [List.length_singleton]
        omega
      · rw [if_neg hmod, if_neg hmod]
        simp only [List.length_nil]
        omega
  · rw [renderStars_eq_of_nonneg 7 (by norm_num)]
    norm_num [jsModOne, jsTrunc]
    rfl
  · rw [renderStars_eq_of_nonneg (7.5 : ℚ) (by norm_num)]
    norm_num [jsModOne, jsTrunc]
    rfl
  · rw [renderStars_eq_of_nonneg (10 : ℚ) (by norm_num)]
    norm_num [jsModOne, jsTrunc]
    all_goals decide

/-- C7 witness: the universally quantified part applied at rating 7. -/
theorem c7_renderStars_in_range_witness :
    renderStars 7 = .ok (List.replicate ⌊(7 : ℚ)⌋.toNat StarGlyph.full ++
        (if jsModOne 7 ≥ 1 / 2 then [StarGlyph.half] else []) ++
        List.replicate
          (max 0 (10 - ⌊(7 : ℚ)⌋ -
            (if jsModOne 7 ≥ 1 / 2 then 1 else 0))).toNat
          StarGlyph.empty) :=
  (c7_renderStars_in_range.1 7 (by norm_num) (by norm_num)).1

/-- C8 counterexample: at rating 10.5 (strictly greater than 10) the
half-star glyph is still emitted — `renderStars 10.5` is 10 full + 1 half,
refuting "zero half-star glyphs for every rating greater than 10". -/
theorem c8_counterexample_half_star_above_ten :
    renderStars (10.5 : ℚ)
        = .ok (List.replicate 10 StarGlyph.full ++ [StarGlyph.half]) ∧
      (List.replicate 10 StarGlyph.full ++ [StarGlyph.half]).count
          StarGlyph.half ≠ 0 := by
  constructor
  · rw [renderStars_eq_of_nonneg (10.5 : ℚ) (by norm_num)]
    norm_num [jsModOne, jsTrunc]
    all_goals decide
  · decide

/-- C8 (amended): for every rating strictly greater than 10 the empty-star
count is zero and the full-star count `⌊rating⌋` (at least 10) is not
capped, but the half-star glyph is still emitted exactly when the
fractional remainder is at least one half. -/
theorem c8_amended_above_ten (q : ℚ) (h : q > 10) :
    renderStars q = .ok (List.replicate ⌊q⌋.toNat StarGlyph.full ++
        (if jsModOne q ≥ 1 / 2 then [StarGlyph.half] else [])) ∧
      10 ≤ ⌊q⌋ := by
  have h0 : (0 : ℚ) ≤ q := by linarith
  have hf10 : 10 ≤ ⌊q⌋ := Int.le_floor.mpr (by exact_mod_cast h.le)
  constructor
  · rw [renderStars_eq_of_nonneg q h0]
    have hzero : (max 0 (10 - ⌊q⌋ - (if jsModOne q ≥ 1 / 2 then 1 else 0))) = 0 := by
      by_cases hmod : jsModOne q ≥ 1 / 2
      · rw [if_pos hmod]; omega
      · rw [if_neg hmod]; omega
    rw [hzero]
    simp
  · exact hf10

/-- C8 amended witness: the amended statement applied at rating 10.5. -/
theorem c8_amended_above_ten_witness :
    renderStars (10.5 : ℚ)
        = .ok (List.replicate ⌊(10.5 : ℚ)⌋.toNat StarGlyph.full ++
          (if jsModOne (10.5 : ℚ) ≥ 1 / 2 then [StarGlyph.half] else [])) ∧
      10 ≤ ⌊(10.5 : ℚ)⌋ :=
  c8_amended_above_ten (10.5 : ℚ) (by norm_num)

/-- C10: `renderStars` is total exactly on nonnegative ratings: for every
rating at least 0 it returns a glyph list (the `max 0` guard keeps the
empty-star count nonnegative and `⌊rating⌋` is nonnegative), while for
every negative rating the full-star array has negative length
`⌊rating⌋ < 0` and the call raises the `RangeError` instead of returning
glyphs. -/
theorem c10_renderStars_totality :
    (∀ q : ℚ, 0 ≤ q → ∃ l, renderStars q = .ok l) ∧
    (∀ q : ℚ, q < 0 → renderStars q = .error "Invalid array length") :=
  ⟨fun q h => ⟨_, renderStars_eq_of_nonneg q h⟩,
    fun q h => renderStars_error_of_neg q h⟩

/-- C10 witness: success at rating 1 and failure at rating -1. -/
theorem c10_renderStars_totality_witness :
    (∃ l, renderStars 1 = .ok l) ∧
      renderStars (-1 : ℚ) = .error "Invalid array length" :=
  ⟨c10_renderStars_totality.1 1 (by norm_num),
    c10_renderStars_totality.2 (-1) (by norm_num)⟩
